import Mathlib

/-!
Verification of the federated-learning round-orchestration core
(`federated_coordinator.py`): a shallow embedding of `FederatedServer`
(`add_client`, `select_clients`, `aggregate_updates`, `federated_round`,
`train`) and of the clipping step of `PrivacyEngine.add_noise_to_gradients`,
together with theorems settling the specification's claims about them.

Modelling conventions:
- A parameter state / delta (`model.state_dict()`, the `updates` dict) is an
  ordered association list from parameter name to a flattened numeric array;
  floating point arithmetic is modelled over `ℚ` (exact), and over `ℝ` where
  a Euclidean norm (square root) is intrinsic.
- Python exceptions are modelled with `Except String`; the one exception the
  claims exercise is the `ZeroDivisionError` in `aggregate_updates`.
  Dictionary indexing (`d[key]`) is modelled with a total lookup carrying a
  default; every theorem below that touches a key carries hypotheses under
  which the source's lookups succeed, so the `KeyError` path of the source is
  never reachable inside a theorem's hypotheses.
- The randomness consumed by `np.random.choice` is supplied explicitly: as a
  permutation of the client pool for `select_clients`, and as the already
  selected client list for `federated_round`.  The stochastic outcome of a
  client's `local_train()` / `evaluate()` is supplied as an oracle per client
  (`trainRes` / `evalRes`), an error value modelling a raised exception.
-/

/-- A flattened parameter tensor (one value of a `state_dict`). -/

abbrev Arr := List ℚ

/-- An ordered state dict / delta: parameter name to flattened array. -/
abbrev Params := List (String × Arr)

/-- Python `d[key]` on an association list (first matching key). -/
def dlookup (k : String) : Params → Option Arr
  | [] => none
  | (k', v) :: rest => if k' = k then some v else dlookup k rest

/-- Elementwise addition of two arrays (`a + b` on tensors of equal shape). -/
def zipAdd (a b : Arr) : Arr := List.zipWith (· + ·) a b

/-- Scaling of an array by a scalar (`weight * tensor`). -/
def scaleArr (c : ℚ) (v : Arr) : Arr := v.map (fun x => c * x)

/-- `torch.zeros_like`: an all-zero array of the same shape. -/
def zerosLike (v : Arr) : Arr := v.map (fun _ => 0)

/-- The key sequence of a state dict. -/
def keysOf (d : Params) : List String := d.map Prod.fst

instance {ε α : Type} [DecidableEq ε] [DecidableEq α] : DecidableEq (Except ε α) :=
  fun a b =>
  match a, b with
  | .ok x, .ok y => if h : x = y then .isTrue (by rw [h]) else .isFalse (by simp [h])
  | .error x, .error y => if h : x = y then .isTrue (by rw [h]) else .isFalse (by simp [h])
  | .ok _, .error _ => .isFalse (by simp)
  | .error _, .ok _ => .isFalse (by simp)

/-- The result dict of `FederatedClient.local_train`. -/
structure Update where
  client_id : String
  updates : Params
  num_samples : ℕ
  loss : ℚ
deriving DecidableEq

/-- The result dict of `FederatedClient.evaluate` (with the `client_id`
field that `federated_round` adds to it). -/
structure EvalResult where
  client_id : String
  accuracy : ℚ
  loss : ℚ
  num_samples : ℕ
deriving DecidableEq

/-- A federated client as `federated_round` observes it: its id and the
outcome of this round's `local_train()` and `evaluate()` calls (an `error`
models a raised exception). -/
structure FederatedClient where
  client_id : String
  trainRes : Except String Update
  evalRes : Except String EvalResult
deriving DecidableEq

/-- `FederatedServer.add_client`: `self.clients.append(client)`. -/
def add_client (clients : List FederatedClient) (client : FederatedClient) :
    List FederatedClient :=
  clients ++ [client]

/-- One iteration of the weighted-averaging inner loop of
`aggregate_updates`: `aggregated[key] += weight * update['updates'][key]`
for one key, with `weight = num_samples / total_samples`. -/
def stepF (total : ℚ) (u : Update) (k : String) (acc : Arr) : Arr :=
  zipAdd acc (scaleArr ((u.num_samples : ℚ) / total)
    ((dlookup k u.updates).getD (zerosLike acc)))

/-- One iteration of the outer weighted-averaging loop of
`aggregate_updates`: fold one client's update into the accumulator dict. -/
def aggStep (total : ℚ) (agg : Params) (u : Update) : Params :=
  agg.map (fun p => (p.1, stepF total u p.1 p.2))

/-- `global_state[key] += v` for one key: every entry keeps its name, and
the entry (or entries) named `k` get `v` added elementwise. -/
def addAt (g : Params) (k : String) (v : Arr) : Params :=
  g.map (fun p => (p.1, if p.1 = k then zipAdd p.2 v else p.2))

/-- `FederatedServer.aggregate_updates` (FedAvg): on an empty update list
return the state unchanged; otherwise compute
`total_samples = Σ num_samples` (raising `ZeroDivisionError` at the first
`num_samples / total_samples` when the total is zero), accumulate
`aggregated[key] = Σ weight_i * delta_i[key]` over the keys of the first
update, and apply `global_state[key] += aggregated[key]`. -/
def aggregate_updates (globalState : Params) (client_updates : List Update) :
    Except String Params :=
  match client_updates with
  | [] => .ok globalState
  | u0 :: rest =>
    let total_samples : ℕ := ((u0 :: rest).map Update.num_samples).sum
    if total_samples = 0 then .error "ZeroDivisionError"
    else
      let init : Params := u0.updates.map (fun p => (p.1, zerosLike p.2))
      let aggregated : Params :=
        (u0 :: rest).foldl (aggStep (total_samples : ℚ)) init
      .ok (aggregated.foldl (fun g p => addAt g p.1 p.2) globalState)

/-! ### `federated_round` -/

/-- The round-result dict of `federated_round`: either the early
`{'status': 'insufficient_clients', 'client_count': …}` dict or the full
`{'status': 'completed', …}` dict. -/
inductive RoundResult where
  | insufficient_clients (client_count : ℕ)
  | completed (participating_clients : ℕ) (avg_loss : ℚ) (avg_accuracy : ℚ)
      (client_evaluations : List EvalResult)
deriving DecidableEq

/-- The per-client loop of `federated_round`: each selected client runs
`local_train()` then `evaluate()` inside one `try`; an exception skips the
rest of that client's block (`continue`), so a client contributes an Update
exactly when training succeeded, and an EvalResult (with its `client_id`
filled in) exactly when evaluation also succeeded. -/
def collect : List FederatedClient → List Update × List EvalResult
  | [] => ([], [])
  | c :: rest =>
    let r := collect rest
    match c.trainRes with
    | .error _ => r
    | .ok u =>
      match c.evalRes with
      | .error _ => (u :: r.1, r.2)
      | .ok e => (u :: r.1, { e with client_id := c.client_id } :: r.2)

/-- `np.mean` on a list of floats. -/
def avgList (l : List ℚ) : ℚ := l.sum / l.length

/-- `FederatedServer.federated_round`, with the selected clients (the
output of `select_clients()` together with this round's per-client
outcomes) supplied explicitly.  Returns the round-result dict, the new
global state, and the new `self.round_results` history. -/
def federated_round (globalState : Params) (round_results : List RoundResult)
    (selected_clients : List FederatedClient) (min_clients : ℕ) :
    Except String (RoundResult × Params × List RoundResult) :=
  if selected_clients.length < min_clients then
    .ok (.insufficient_clients selected_clients.length, globalState,
      round_results)
  else
    let cu := collect selected_clients
    match (if cu.1.isEmpty then Except.ok globalState
        else aggregate_updates globalState cu.1) with
    | .error e => .error e
    | .ok newGlobal =>
      let avg_loss := if cu.1.isEmpty then 0 else avgList (cu.1.map Update.loss)
      let avg_accuracy :=
        if cu.2.isEmpty then 0 else avgList (cu.2.map EvalResult.accuracy)
      let round_result :=
        RoundResult.completed cu.1.length avg_loss avg_accuracy cu.2
      .ok (round_result, newGlobal, round_results ++ [round_result])

/-- `local_train` succeeded for this client this round. -/
def train_ok (c : FederatedClient) : Bool :=
  match c.trainRes with
  | .ok _ => true
  | .error _ => false

/-- The 5-client scenario of claim C9: clients 1,2,4,5 train successfully,
client 3 raises during local training. -/
def demo5 : List FederatedClient :=
  [⟨"c1", .ok ⟨"c1", [("w", [1])], 10, 0⟩, .ok ⟨"c1", 1/2, 0, 10⟩⟩,
    ⟨"c2", .ok ⟨"c2", [("w", [1])], 10, 0⟩, .ok ⟨"c2", 1/2, 0, 10⟩⟩,
    ⟨"c3", .error "boom", .error "boom"⟩,
    ⟨"c4", .ok ⟨"c4", [("w", [1])], 10, 0⟩, .ok ⟨"c4", 1/2, 0, 10⟩⟩,
    ⟨"c5", .ok ⟨"c5", [("w", [1])], 10, 0⟩, .ok ⟨"c5", 1/2, 0, 10⟩⟩]

/-! ### `train` -/

/-- The history record returned by `FederatedServer.train`
(`training_history`): the per-round results, each tagged with the 1-based
round number stored into it, plus `final_accuracy` and
`convergence_round`. -/
structure TrainingHistory where
  rounds : List (ℕ × RoundResult)
  final_accuracy : ℚ
  convergence_round : ℤ
deriving DecidableEq

/-- The round loop of `FederatedServer.train`, as a recursion over the
remaining round budget, with this round's results supplied by the oracle
`roundFn`.  Returns (`best_accuracy`, `convergence_round`, the records
appended to `training_history['rounds']` by the remaining iterations).
The source hardcodes `convergence_threshold = 0.001` and `patience = 3`;
the `no_improvement_count >= patience` break check runs after the update,
so in the improving branch it compares the freshly reset counter `0`. -/
def train_go (roundFn : ℕ → RoundResult) (round_num : ℕ) :
    ℕ → ℚ → ℕ → ℚ × ℤ × List (ℕ × RoundResult)
  | 0, best_accuracy, _ => (best_accuracy, -1, [])
  | remaining + 1, best_accuracy, no_improvement_count =>
    let round_result := roundFn round_num
    match round_result with
    | .insufficient_clients _ =>
      let r := train_go roundFn (round_num + 1) remaining best_accuracy
        no_improvement_count
      (r.1, r.2.1, (round_num + 1, round_result) :: r.2.2)
    | .completed _ _ a _ =>
      if a > best_accuracy + 1/1000 then
        if (0 : ℕ) ≥ 3 then
          (a, (round_num + 1 : ℤ), [(round_num + 1, round_result)])
        else
          let r := train_go roundFn (round_num + 1) remaining a 0
          (r.1, r.2.1, (round_num + 1, round_result) :: r.2.2)
      else
        if no_improvement_count + 1 ≥ 3 then
          (best_accuracy, (round_num + 1 : ℤ),
            [(round_num + 1, round_result)])
        else
          let r := train_go roundFn (round_num + 1) remaining best_accuracy
            (no_improvement_count + 1)
          (r.1, r.2.1, (round_num + 1, round_result) :: r.2.2)

/-- `FederatedServer.train`: up to `num_rounds` rounds starting from
`best_accuracy = 0`, `no_improvement_count = 0`; `final_accuracy` is the
final `best_accuracy` and `convergence_round` is `-1` unless early
stopping fired. -/
def train (roundFn : ℕ → RoundResult) (num_rounds : ℕ) : TrainingHistory :=
  let r := train_go roundFn 0 num_rounds 0 0
  { rounds := r.2.2, final_accuracy := r.1, convergence_round := r.2.1 }

/-- The convergence rule exactly as the specification words it (claim C5):
on a COMPLETED round with accuracy `a`, improve-and-reset when
`a > best + threshold`, else increment the counter; an
INSUFFICIENT_CLIENTS round changes neither value. -/
def trackerStep (s : ℚ × ℕ) (r : RoundResult) : ℚ × ℕ :=
  match r with
  | .insufficient_clients _ => s
  | .completed _ _ a _ =>
    if a > s.1 + 1/1000 then (a, 0) else (s.1, s.2 + 1)

/-- Run the specification's tracker over a script of round results,
halting as soon as the counter reaches the patience of 3; returns the
final best accuracy and the 1-based position of the halting round, if
any. -/
def trackerRun (s : ℚ × ℕ) (pos : ℕ) : List RoundResult → ℚ × Option ℕ
  | [] => (s.1, none)
  | r :: rest =>
    if (trackerStep s r).2 ≥ 3 then ((trackerStep s r).1, some (pos + 1))
    else trackerRun (trackerStep s r) (pos + 1) rest

/-- The scripted avg_accuracy sequence `[0.5, 0.5005, 0.5007, 0.5006]` of
claim C5's concrete scenario. -/
def script4 : ℕ → RoundResult := fun i =>
  match i with
  | 0 => .completed 3 0 (1/2) []
  | 1 => .completed 3 0 (1001/2000) []
  | 2 => .completed 3 0 (5007/10000) []
  | _ => .completed 3 0 (2503/5000) []

/-- The scripted accuracy sequence `[0.5, 0.5005]` of the counterexample
to claim C6: the second round improves, but by less than the threshold. -/
def script2 : ℕ → RoundResult := fun i =>
  match i with
  | 0 => .completed 3 0 (1/2) []
  | _ => .completed 3 0 (1001/2000) []

/-- The avg_accuracy values of the COMPLETED rounds in a history. -/
def completedAccuracies (hist : List (ℕ × RoundResult)) : List ℚ :=
  hist.filterMap (fun e =>
    match e.2 with
    | .completed _ _ a _ => some a
    | .insufficient_clients _ => none)

/-! ### `select_clients` -/

/-- `FederatedServer.select_clients`:
`num_selected = max(1, int(len(self.clients) * fraction))`, then
`np.random.choice(self.clients, num_selected, replace=False).tolist()`.
The draw without replacement is modelled by taking the first
`num_selected` elements of the RNG-chosen permutation `shuffled` of the
client pool; Python `int()` on the nonnegative product is floor. -/
def select_clients (clients : List FederatedClient) (fraction : ℚ)
    (shuffled : List FederatedClient) : List FederatedClient :=
  let num_selected := max 1 (⌊(clients.length : ℚ) * fraction⌋.toNat)
  shuffled.take num_selected

/-- A pool of three distinct registered clients for the C3 witness. -/
def demo3c : List FederatedClient :=
  [⟨"a", .error "", .error ""⟩, ⟨"b", .error "", .error ""⟩,
    ⟨"c", .error "", .error ""⟩]

/-! ### `PrivacyEngine` gradient clipping (claim C4)

The source computes floating-point square roots; the model is over `ℝ`
(necessarily noncomputable), the delta being the list of flattened
per-parameter gradient arrays. -/

noncomputable section

/-- Sum of squares of one flattened gradient array. -/
def sumSq (arr : List ℝ) : ℝ := (arr.map (fun x => x ^ 2)).sum

/-- `param.grad.data.norm(2)` of one flattened gradient array. -/
def param_norm (arr : List ℝ) : ℝ := Real.sqrt (sumSq arr)

/-- `total_norm` as computed by `add_noise_to_gradients`: accumulate
`param_norm ** 2` over the parameters, then take `** 0.5`. -/
def total_norm (delta : List (List ℝ)) : ℝ :=
  Real.sqrt ((delta.map (fun arr => param_norm arr ^ 2)).sum)

/-- The clipping step of `PrivacyEngine.add_noise_to_gradients`, before
noise injection: `clip_coef = max_grad_norm / (total_norm + 1e-6)`; if
`clip_coef < 1`, every gradient array is scaled by `clip_coef`. -/
def clip_gradients (max_grad_norm : ℝ) (delta : List (List ℝ)) :
    List (List ℝ) :=
  let clip_coef := max_grad_norm / (total_norm delta + 1 / 1000000)
  if clip_coef < 1 then
    delta.map (fun arr => arr.map (fun x => clip_coef * x))
  else delta

end

/-- Claim C10: with a non-empty update list whose sample counts are all
zero, the weight computation `num_samples / total_samples` in
`aggregate_updates` raises an uncaught `ZeroDivisionError` instead of
returning. -/
theorem aggregate_updates_zero_samples_div_error
    (globalState : Params) (u0 : Update) (rest : List Update)
    (hall : ∀ u ∈ u0 :: rest, u.num_samples = 0) :
    aggregate_updates globalState (u0 :: rest) = .error "ZeroDivisionError" := by
  have htot : ((u0 :: rest).map Update.num_samples).sum = 0 := by
    apply List.sum_eq_zero
    intro x hx
    rcases List.mem_map.mp hx with ⟨u, hu, rfl⟩
    exact hall u hu
  simp only [aggregate_updates]
  rw [if_pos htot]

/-- Witness for C10: two clients with empty datasets (`num_samples = 0`)
make aggregation raise. -/
theorem aggregate_updates_zero_samples_div_error_witness :
    aggregate_updates [("w", [(0 : ℚ)])]
      [⟨"c1", [("w", [1])], 0, 0⟩, ⟨"c2", [("w", [2])], 0, 0⟩]
      = .error "ZeroDivisionError" := by
  exact aggregate_updates_zero_samples_div_error _ _ _ (by decide)

/-- Counterexample to claim C8: registering a second client with an already
registered `client_id` does not fail and does change the registered set
(the source `add_client` appends unconditionally, with no duplicate
check). -/
theorem add_client_duplicate_cex :
    add_client [⟨"facility_0", .error "", .error ""⟩]
        ⟨"facility_0", .error "", .error ""⟩
      ≠ [⟨"facility_0", .error "", .error ""⟩] ∧
    (add_client [⟨"facility_0", .error "", .error ""⟩]
        ⟨"facility_0", .error "", .error ""⟩).map FederatedClient.client_id
      = ["facility_0", "facility_0"] := by
  constructor
  · decide
  · rfl

/-- Claim C8 (amended): `add_client` appends the given record
unconditionally — the registered list grows by exactly that record, keeping
every previously registered client, even when the `client_id` is already
present; no duplicate detection or error exists. -/
theorem add_client_appends (clients : List FederatedClient)
    (client : FederatedClient) :
    (add_client clients client).length = clients.length + 1 ∧
    (add_client clients client).map FederatedClient.client_id
      = clients.map FederatedClient.client_id ++ [client.client_id] := by
  constructor
  · simp [add_client]
  · simp [add_client]

/-! ### Association-list lemmas used to characterise `aggregate_updates` -/

theorem dlookup_mem {k : String} {v : Arr} {l : Params}
    (h : dlookup k l = some v) : (k, v) ∈ l := by
  induction l with
  | nil => simp [dlookup] at h
  | cons p rest ih =>
    obtain ⟨k', w⟩ := p
    by_cases hk : k' = k
    · subst hk
      simp [dlookup] at h
      subst h
      exact List.mem_cons_self _ _
    · simp only [dlookup, if_neg hk] at h
      exact List.mem_cons_of_mem _ (ih h)

theorem dlookup_map_pair (f : String → Arr → Arr) (l : Params) (k : String) :
    dlookup k (l.map (fun p => (p.1, f p.1 p.2))) = (dlookup k l).map (f k) := by
  induction l with
  | nil => simp [dlookup]
  | cons p rest ih =>
    obtain ⟨k', w⟩ := p
    by_cases hk : k' = k
    · subst hk
      simp [dlookup, ih]
    · simp [dlookup, hk, ih]

theorem keysOf_map_preserve (f : String × Arr → String × Arr)
    (hf : ∀ p, (f p).1 = p.1) (l : Params) :
    keysOf (l.map f) = keysOf l := by
  induction l with
  | nil => rfl
  | cons p rest ih =>
    simp only [List.map_cons, keysOf] at ih ⊢
    rw [hf p, ih]

theorem foldl_option_map (g : Update → Arr → Arr) (us : List Update) (v : Arr) :
    us.foldl (fun o u => o.map (g u)) (some v)
      = some (us.foldl (fun x u => g u x) v) := by
  induction us generalizing v with
  | nil => rfl
  | cons u rest ih => simp [List.foldl_cons, ih]

theorem dlookup_foldl_aggStep (total : ℚ) (us : List Update) (k : String) :
    ∀ agg : Params,
      dlookup k (us.foldl (aggStep total) agg)
        = us.foldl (fun o u => o.map (stepF total u k)) (dlookup k agg) := by
  induction us with
  | nil => intro agg; rfl
  | cons u rest ih =>
    intro agg
    rw [List.foldl_cons, List.foldl_cons, ih]
    congr 1
    exact dlookup_map_pair (stepF total u) agg k

theorem keysOf_foldl_aggStep (total : ℚ) (us : List Update) :
    ∀ agg : Params, keysOf (us.foldl (aggStep total) agg) = keysOf agg := by
  induction us with
  | nil => intro agg; rfl
  | cons u rest ih =>
    intro agg
    rw [List.foldl_cons, ih]
    exact keysOf_map_preserve (fun p => (p.1, stepF total u p.1 p.2))
      (fun p => rfl) agg

theorem zipAdd_length (a b : Arr) : (zipAdd a b).length = min a.length b.length := by
  simp [zipAdd]

theorem scaleArr_length (c : ℚ) (v : Arr) : (scaleArr c v).length = v.length := by
  simp [scaleArr]

theorem zerosLike_length (v : Arr) : (zerosLike v).length = v.length := by
  simp [zerosLike]

theorem zipAdd_getD (a b : Arr) (j : ℕ) (ha : j < a.length) (hb : j < b.length) :
    (zipAdd a b).getD j 0 = a.getD j 0 + b.getD j 0 := by
  induction a generalizing b j with
  | nil => simp at ha
  | cons x xs ih =>
    cases b with
    | nil => simp at hb
    | cons y ys =>
      cases j with
      | zero => simp [zipAdd]
      | succ n =>
        simp only [zipAdd, List.zipWith_cons_cons, List.getD_cons_succ]
        exact ih ys n (by simpa using ha) (by simpa using hb)

theorem scaleArr_getD (c : ℚ) (v : Arr) (j : ℕ) (hj : j < v.length) :
    (scaleArr c v).getD j 0 = c * v.getD j 0 := by
  induction v generalizing j with
  | nil => simp at hj
  | cons x xs ih =>
    cases j with
    | zero => simp [scaleArr]
    | succ n =>
      simp only [scaleArr, List.map_cons, List.getD_cons_succ]
      exact ih n (by simpa using hj)

theorem zerosLike_getD (v : Arr) (j : ℕ) : (zerosLike v).getD j 0 = 0 := by
  induction v generalizing j with
  | nil => simp [zerosLike]
  | cons x xs ih =>
    cases j with
    | zero => simp [zerosLike]
    | succ n => simp [zerosLike]

theorem stepF_fold_spec (k : String) (total : ℚ) (L : ℕ) (us : List Update) :
    ∀ acc : Arr, acc.length = L →
      (∀ u ∈ us, ∃ d, dlookup k u.updates = some d ∧ d.length = L) →
      (us.foldl (fun x u => stepF total u k x) acc).length = L ∧
      ∀ j, j < L →
        (us.foldl (fun x u => stepF total u k x) acc).getD j 0
          = acc.getD j 0
            + (us.map (fun u => ((u.num_samples : ℚ) / total)
                * ((dlookup k u.updates).getD []).getD j 0)).sum := by
  induction us with
  | nil =>
    intro acc hacc _
    refine ⟨hacc, ?_⟩
    intro j _
    simp
  | cons u rest ih =>
    intro acc hacc hd
    obtain ⟨d, hdl, hdL⟩ := hd u (List.mem_cons_self u rest)
    have hstep_len : (stepF total u k acc).length = L := by
      rw [stepF, hdl, Option.getD_some, zipAdd_length, scaleArr_length, hacc, hdL,
        min_self]
    have hrest : ∀ v ∈ rest, ∃ d, dlookup k v.updates = some d ∧ d.length = L :=
      fun v hv => hd v (List.mem_cons_of_mem u hv)
    obtain ⟨ihlen, ihget⟩ := ih (stepF total u k acc) hstep_len hrest
    refine ⟨ihlen, ?_⟩
    intro j hj
    rw [List.foldl_cons, ihget j hj]
    have hstep_get : (stepF total u k acc).getD j 0
        = acc.getD j 0 + ((u.num_samples : ℚ) / total) * d.getD j 0 := by
      rw [stepF, hdl, Option.getD_some]
      rw [zipAdd_getD _ _ j (by rw [hacc]; exact hj)
        (by rw [scaleArr_length, hdL]; exact hj)]
      rw [scaleArr_getD _ _ j (by rw [hdL]; exact hj)]
    rw [hstep_get, List.map_cons, List.sum_cons, hdl, Option.getD_some]
    ring

theorem dlookup_addAt (g : Params) (k k' : String) (v : Arr) :
    dlookup k (addAt g k' v)
      = (dlookup k g).map (fun w => if k = k' then zipAdd w v else w) :=
  dlookup_map_pair (fun k₁ w => if k₁ = k' then zipAdd w v else w) g k

theorem dlookup_addAt_self (g : Params) (k : String) (v : Arr) :
    dlookup k (addAt g k v) = (dlookup k g).map (fun gv => zipAdd gv v) := by
  rw [dlookup_addAt]
  simp

theorem dlookup_addAt_ne (g : Params) {k k' : String} (h : k' ≠ k) (v : Arr) :
    dlookup k (addAt g k' v) = dlookup k g := by
  rw [dlookup_addAt]
  have h' : ¬ k = k' := fun hh => h hh.symm
  simp [h']

theorem keysOf_addAt (g : Params) (k : String) (v : Arr) :
    keysOf (addAt g k v) = keysOf g :=
  keysOf_map_preserve (fun p => (p.1, if p.1 = k then zipAdd p.2 v else p.2))
    (fun _ => rfl) g

theorem dlookup_notin (k : String) (l : Params) (h : k ∉ keysOf l) :
    dlookup k l = none := by
  induction l with
  | nil => rfl
  | cons p rest ih =>
    obtain ⟨k', w⟩ := p
    simp only [keysOf, List.map_cons, List.mem_cons, not_or] at h
    obtain ⟨h1, h2⟩ := h
    have hne : ¬ k' = k := fun hh => h1 hh.symm
    simp only [dlookup, if_neg hne]
    exact ih (by simpa [keysOf] using h2)

theorem keysOf_applyfold :
    ∀ (agg : Params) (g : Params),
      keysOf (agg.foldl (fun acc p => addAt acc p.1 p.2) g) = keysOf g := by
  intro agg
  induction agg with
  | nil => intro g; rfl
  | cons p rest ih =>
    intro g
    rw [List.foldl_cons, ih, keysOf_addAt]

theorem dlookup_applyfold_notin :
    ∀ (agg : Params) (g : Params) (k : String), k ∉ keysOf agg →
      dlookup k (agg.foldl (fun acc p => addAt acc p.1 p.2) g) = dlookup k g := by
  intro agg
  induction agg with
  | nil => intro g k _; rfl
  | cons p rest ih =>
    intro g k hk
    simp only [keysOf, List.map_cons, List.mem_cons, not_or] at hk
    rw [List.foldl_cons, ih _ k (by simpa [keysOf] using hk.2),
      dlookup_addAt_ne _ (fun h => hk.1 h.symm) _]

theorem dlookup_applyfold_some :
    ∀ (agg : Params) (g : Params) (k : String) (av : Arr),
      (keysOf agg).Nodup → dlookup k agg = some av →
      dlookup k (agg.foldl (fun acc p => addAt acc p.1 p.2) g)
        = (dlookup k g).map (fun gv => zipAdd gv av) := by
  intro agg
  induction agg with
  | nil => intro g k av _ h; simp [dlookup] at h
  | cons p rest ih =>
    intro g k av hnd hl
    obtain ⟨k₁, v₁⟩ := p
    simp only [keysOf, List.map_cons, List.nodup_cons] at hnd
    obtain ⟨hk1, hndrest⟩ := hnd
    rw [List.foldl_cons]
    by_cases hk : k₁ = k
    · subst hk
      simp [dlookup] at hl
      subst hl
      rw [dlookup_applyfold_notin rest _ k₁ (by simpa [keysOf] using hk1),
        dlookup_addAt_self]
    · simp only [dlookup, if_neg hk] at hl
      rw [ih (addAt g k₁ v₁) k av (by simpa [keysOf] using hndrest) hl,
        dlookup_addAt_ne _ hk _]

/-- Claim C1: for a non-empty update list whose sample counts sum to a
positive total and whose deltas share one key set aligned with the global
state (matching shapes, unique keys), `aggregate_updates` succeeds and adds
to each key of the global parameter state exactly the elementwise weighted
sum `Σ_i (n_i / Σ_j n_j) * delta_i[key]`, and changes nothing about which
keys the global state holds. -/
theorem aggregate_updates_weighted_sum
    (globalState : Params) (u0 : Update) (rest : List Update)
    (htot : 0 < ((u0 :: rest).map Update.num_samples).sum)
    (hnodup : (keysOf u0.updates).Nodup)
    (_hshare : ∀ u ∈ u0 :: rest, keysOf u.updates = keysOf u0.updates)
    (hkeys : ∀ p ∈ globalState, ∀ u ∈ u0 :: rest,
      ∃ d, dlookup p.1 u.updates = some d ∧ d.length = p.2.length)
    (_hcover : ∀ p ∈ u0.updates, ∃ gv, dlookup p.1 globalState = some gv) :
    ∃ g', aggregate_updates globalState (u0 :: rest) = .ok g' ∧
      keysOf g' = keysOf globalState ∧
      ∀ k gv, dlookup k globalState = some gv →
        ∃ nv, dlookup k g' = some nv ∧ nv.length = gv.length ∧
          ∀ j, j < gv.length → nv.getD j 0 = gv.getD j 0 +
            ((u0 :: rest).map (fun u =>
              ((u.num_samples : ℚ)
                  / (((u0 :: rest).map Update.num_samples).sum : ℚ))
                * ((dlookup k u.updates).getD []).getD j 0)).sum := by
  have hne : ((u0 :: rest).map Update.num_samples).sum ≠ 0 :=
    Nat.pos_iff_ne_zero.mp htot
  have hrun : aggregate_updates globalState (u0 :: rest)
      = .ok (((u0 :: rest).foldl
            (aggStep ((((u0 :: rest).map Update.num_samples).sum : ℕ) : ℚ))
            (u0.updates.map (fun p => (p.1, zerosLike p.2)))).foldl
          (fun g p => addAt g p.1 p.2) globalState) := by
    simp only [aggregate_updates]
    rw [if_neg hne]
  refine ⟨_, hrun, keysOf_applyfold _ _, ?_⟩
  intro k gv hgv
  have hmem : (k, gv) ∈ globalState := dlookup_mem hgv
  obtain ⟨d0, hd0, hd0L⟩ := hkeys (k, gv) hmem u0 (List.mem_cons_self u0 rest)
  have hinit : dlookup k (u0.updates.map (fun p => (p.1, zerosLike p.2)))
      = some (zerosLike d0) := by
    have h1 : dlookup k (u0.updates.map (fun p => (p.1, zerosLike p.2)))
        = (dlookup k u0.updates).map (fun v => zerosLike v) :=
      dlookup_map_pair (fun _ v => zerosLike v) u0.updates k
    rw [h1, hd0]
    rfl
  have haggl : dlookup k ((u0 :: rest).foldl
        (aggStep ((((u0 :: rest).map Update.num_samples).sum : ℕ) : ℚ))
        (u0.updates.map (fun p => (p.1, zerosLike p.2))))
      = some ((u0 :: rest).foldl
          (fun x u =>
            stepF ((((u0 :: rest).map Update.num_samples).sum : ℕ) : ℚ) u k x)
          (zerosLike d0)) := by
    rw [dlookup_foldl_aggStep, hinit, foldl_option_map]
  obtain ⟨hlen, hget⟩ := stepF_fold_spec k
    ((((u0 :: rest).map Update.num_samples).sum : ℕ) : ℚ)
    gv.length (u0 :: rest) (zerosLike d0)
    (by rw [zerosLike_length, hd0L])
    (fun u hu => hkeys (k, gv) hmem u hu)
  have hndagg : (keysOf ((u0 :: rest).foldl
        (aggStep ((((u0 :: rest).map Update.num_samples).sum : ℕ) : ℚ))
        (u0.updates.map (fun p => (p.1, zerosLike p.2))))).Nodup := by
    rw [keysOf_foldl_aggStep,
      show keysOf (u0.updates.map (fun p => (p.1, zerosLike p.2)))
          = keysOf u0.updates from
        keysOf_map_preserve (fun p => (p.1, zerosLike p.2)) (fun _ => rfl) _]
    exact hnodup
  have hfin := dlookup_applyfold_some _ globalState k _ hndagg haggl
  rw [hgv, Option.map_some'] at hfin
  refine ⟨_, hfin, ?_, ?_⟩
  · rw [zipAdd_length, hlen, min_self]
  · intro j hj
    rw [zipAdd_getD gv _ j hj (by rw [hlen]; exact hj), hget j hj,
      zerosLike_getD, zero_add]

/-- Witness for C1 (the spec's end-to-end scenario): two clients with
sample counts 100 and 300 both reporting a delta of `+1.0` for the single
scalar parameter `w` initialised at `0.0` yield a global `w` of exactly
`1.0` after aggregation. -/
theorem aggregate_updates_weighted_sum_witness :
    ∃ g', aggregate_updates [("w", [(0 : ℚ)])]
        [⟨"c1", [("w", [1])], 100, 0⟩, ⟨"c2", [("w", [1])], 300, 0⟩]
        = .ok g' ∧
      dlookup "w" g' = some [1] := by
  obtain ⟨g', hrun, hkeys', hval⟩ :=
    aggregate_updates_weighted_sum [("w", [(0 : ℚ)])]
      ⟨"c1", [("w", [1])], 100, 0⟩ [⟨"c2", [("w", [1])], 300, 0⟩]
      (by decide) (by decide) (by decide)
      (by
        intro p hp u hu
        simp only [List.mem_singleton] at hp
        subst hp
        simp only [List.mem_cons, List.mem_singleton] at hu
        rcases hu with rfl | rfl | h
        · exact ⟨[1], rfl, rfl⟩
        · exact ⟨[1], rfl, rfl⟩
        · exact absurd h (List.not_mem_nil u))
      (by
        intro p hp
        simp only [List.mem_singleton] at hp
        subst hp
        exact ⟨[0], rfl⟩)
  obtain ⟨nv, hnv, hlen, hget⟩ := hval "w" [0] (by rfl)
  obtain ⟨a, rfl⟩ := List.length_eq_one.mp hlen
  have ha := hget 0 (by norm_num)
  simp [dlookup] at ha
  norm_num at ha
  subst ha
  exact ⟨g', hrun, hnv⟩

theorem collect_updates_nil_evals :
    ∀ l : List FederatedClient, (collect l).1 = [] → (collect l).2 = [] := by
  intro l
  induction l with
  | nil => intro _; rfl
  | cons c rest ih =>
    intro h
    obtain ⟨cid, ctr, cev⟩ := c
    simp only [collect] at h ⊢
    cases ctr with
    | error e => exact ih h
    | ok u =>
      cases cev with
      | error e2 => simp at h
      | ok e2 => simp at h

theorem collect_updates_eq (l : List FederatedClient) :
    (collect l).1 = l.filterMap (fun c => c.trainRes.toOption) := by
  induction l with
  | nil => rfl
  | cons c rest ih =>
    obtain ⟨cid, ctr, cev⟩ := c
    simp only [collect, List.filterMap_cons]
    cases ctr with
    | error e => simp [Except.toOption, ih]
    | ok u =>
      cases cev with
      | error e2 => simp [Except.toOption, ih]
      | ok e2 => simp [Except.toOption, ih]

theorem collect_updates_length (l : List FederatedClient) :
    (collect l).1.length = (l.filter train_ok).length := by
  induction l with
  | nil => rfl
  | cons c rest ih =>
    obtain ⟨cid, ctr, cev⟩ := c
    simp only [collect, List.filter_cons]
    cases ctr with
    | error e => simp [train_ok, ih]
    | ok u =>
      cases cev with
      | error e2 => simp [train_ok, ih]
      | ok e2 => simp [train_ok, ih]

theorem federated_round_ge_case
    (globalState : Params) (round_results : List RoundResult)
    (selected_clients : List FederatedClient) (min_clients : ℕ)
    (r : RoundResult) (g' : Params) (rr' : List RoundResult)
    (hge : ¬ selected_clients.length < min_clients)
    (hok : federated_round globalState round_results selected_clients
        min_clients = .ok (r, g', rr')) :
    r = .completed (collect selected_clients).1.length
        (if (collect selected_clients).1.isEmpty then 0
          else avgList ((collect selected_clients).1.map Update.loss))
        (if (collect selected_clients).2.isEmpty then 0
          else avgList ((collect selected_clients).2.map EvalResult.accuracy))
        (collect selected_clients).2
      ∧ rr' = round_results ++ [r]
      ∧ ((collect selected_clients).1.isEmpty → g' = globalState) := by
  simp only [federated_round, if_neg hge] at hok
  cases hagg : (if (collect selected_clients).1.isEmpty then
      Except.ok globalState
    else aggregate_updates globalState (collect selected_clients).1) with
  | error e =>
    rw [hagg] at hok
    exact absurd hok (by simp)
  | ok ng =>
    rw [hagg] at hok
    simp only [Except.ok.injEq, Prod.mk.injEq] at hok
    obtain ⟨hr, hg, hrr⟩ := hok
    refine ⟨hr.symm, ?_, ?_⟩
    · rw [← hrr, hr]
    · intro hemp
      rw [if_pos hemp] at hagg
      rw [← hg]
      exact (Except.ok.inj hagg).symm

/-- Counterexample to claim C2: with `min_clients = 3`, three selected
clients whose local training all raises produce zero Updates, yet the
round result has status COMPLETED (participants 0), not
INSUFFICIENT_CLIENTS as the claim requires. -/
theorem federated_round_zero_updates_completed_cex :
    federated_round [("w", [(0 : ℚ)])] []
        [⟨"c1", .error "e", .error "e"⟩, ⟨"c2", .error "e", .error "e"⟩,
          ⟨"c3", .error "e", .error "e"⟩] 3
      = .ok (.completed 0 0 0 [], [("w", [0])], [.completed 0 0 0 []])
    ∧ ∀ n, (RoundResult.completed 0 0 0 [] ≠ .insufficient_clients n) := by
  constructor
  · rfl
  · intro n
    simp

/-- Claim C2 (amended): the round result of `federated_round` has status
INSUFFICIENT_CLIENTS exactly when fewer than `min_clients` clients were
selected; in that case the global state and round history are unchanged and
the record carries `client_count = |selected|`.  When at least `min_clients`
were selected but zero Updates were collected, the round instead completes
with status COMPLETED, zero participants and zero averages, the global
state again unchanged. -/
theorem federated_round_insufficient_iff
    (globalState : Params) (round_results : List RoundResult)
    (selected_clients : List FederatedClient) (min_clients : ℕ)
    (r : RoundResult) (g' : Params) (rr' : List RoundResult)
    (hok : federated_round globalState round_results selected_clients
        min_clients = .ok (r, g', rr')) :
    ((∃ n, r = .insufficient_clients n) ↔
        selected_clients.length < min_clients)
    ∧ (selected_clients.length < min_clients →
        r = .insufficient_clients selected_clients.length
          ∧ g' = globalState ∧ rr' = round_results)
    ∧ (min_clients ≤ selected_clients.length →
        (collect selected_clients).1 = [] →
        r = .completed 0 0 0 [] ∧ g' = globalState) := by
  by_cases hlt : selected_clients.length < min_clients
  · simp only [federated_round, if_pos hlt, Except.ok.injEq,
      Prod.mk.injEq] at hok
    obtain ⟨hr, hg, hrr⟩ := hok
    subst hr
    subst hg
    subst hrr
    exact ⟨⟨fun _ => hlt, fun _ => ⟨_, rfl⟩⟩, fun _ => ⟨rfl, rfl, rfl⟩,
      fun hge _ => absurd hlt (not_lt.mpr hge)⟩
  · obtain ⟨hr, hrr, hemp⟩ :=
      federated_round_ge_case _ _ _ _ _ _ _ hlt hok
    refine ⟨⟨?_, fun h => absurd h hlt⟩, fun h => absurd h hlt, ?_⟩
    · intro hn
      obtain ⟨n, hn⟩ := hn
      rw [hr] at hn
      exact absurd hn (by simp)
    · intro _ hnil
      have hevals : (collect selected_clients).2 = [] :=
        collect_updates_nil_evals _ hnil
      have hempb : (collect selected_clients).1.isEmpty = true := by
        rw [hnil]
        rfl
      constructor
      · rw [hr, hnil, hevals]
        simp
      · exact hemp hempb

/-- Witness for C2 (amended): one selected client with `min_clients = 3`
yields the INSUFFICIENT_CLIENTS record with `client_count = 1`, unchanged
global state and unchanged history. -/
theorem federated_round_insufficient_iff_witness :
    ∃ r g' rr', federated_round [("w", [(0 : ℚ)])] []
        [⟨"c1", .error "e", .error "e"⟩] 3 = .ok (r, g', rr')
      ∧ r = .insufficient_clients 1 ∧ g' = [("w", [0])] ∧ rr' = [] := by
  have hok : federated_round [("w", [(0 : ℚ)])] []
      [⟨"c1", .error "e", .error "e"⟩] 3
      = .ok (.insufficient_clients 1, [("w", [0])], []) := rfl
  obtain ⟨_, hins, _⟩ :=
    federated_round_insufficient_iff _ _ _ _ _ _ _ hok
  obtain ⟨h1, h2, h3⟩ := hins (by norm_num)
  exact ⟨_, _, _, hok, h1, h2, h3⟩

theorem aggregate_updates_ok_of_total_pos (globalState : Params)
    (us : List Update) (htot : 0 < (us.map Update.num_samples).sum) :
    ∃ g', aggregate_updates globalState us = .ok g' := by
  cases us with
  | nil => exact ⟨globalState, rfl⟩
  | cons u0 rest =>
    have hne := Nat.pos_iff_ne_zero.mp htot
    refine ⟨((u0 :: rest).foldl
        (aggStep ((((u0 :: rest).map Update.num_samples).sum : ℕ) : ℚ))
        (u0.updates.map (fun p => (p.1, zerosLike p.2)))).foldl
        (fun g p => addAt g p.1 p.2) globalState, ?_⟩
    simp only [aggregate_updates]
    rw [if_neg hne]

/-- Claim C9: if some selected clients raise during local training,
`federated_round` does not abort — every client is still processed in
order, the collected Updates are exactly those of the clients whose
training succeeded, the round completes, and the record's participating
count equals the number of clients that produced an Update. -/
theorem federated_round_partial_failure
    (globalState : Params) (round_results : List RoundResult)
    (selected_clients : List FederatedClient) (min_clients : ℕ)
    (hge : min_clients ≤ selected_clients.length)
    (htot : 0 < ((collect selected_clients).1.map Update.num_samples).sum) :
    ∃ l a g',
      federated_round globalState round_results selected_clients min_clients
        = .ok (.completed (selected_clients.filter train_ok).length l a
            (collect selected_clients).2, g',
          round_results
            ++ [.completed (selected_clients.filter train_ok).length l a
                (collect selected_clients).2])
      ∧ (collect selected_clients).1
          = selected_clients.filterMap (fun c => c.trainRes.toOption) := by
  have hnotlt : ¬ selected_clients.length < min_clients := not_lt.mpr hge
  have hnonempty : (collect selected_clients).1 ≠ [] := by
    intro h
    rw [h] at htot
    simp at htot
  have hempfalse : (collect selected_clients).1.isEmpty = false := by
    cases hc : (collect selected_clients).1 with
    | nil => exact absurd hc hnonempty
    | cons a t => rfl
  obtain ⟨g', hagg⟩ := aggregate_updates_ok_of_total_pos globalState _ htot
  refine ⟨avgList ((collect selected_clients).1.map Update.loss),
    (if (collect selected_clients).2.isEmpty then 0
      else avgList ((collect selected_clients).2.map EvalResult.accuracy)),
    g', ?_, collect_updates_eq _⟩
  simp only [federated_round, if_neg hnotlt, hempfalse, Bool.false_eq_true,
    if_false, hagg, collect_updates_length]

/-- Witness for C9 (the spec's scenario): 5 selected clients where the
third raises during local training still give a COMPLETED round whose
participating count is 4. -/
theorem federated_round_partial_failure_witness :
    ∃ l a g', federated_round [("w", [(0 : ℚ)])] [] demo5 3
      = .ok (.completed 4 l a (collect demo5).2, g',
          [.completed 4 l a (collect demo5).2]) := by
  obtain ⟨l, a, g', hrun, _⟩ :=
    federated_round_partial_failure [("w", [(0 : ℚ)])] [] demo5 3
      (by norm_num [demo5]) (by decide)
  refine ⟨l, a, g', ?_⟩
  have h4 : (demo5.filter train_ok).length = 4 := by decide
  rw [h4] at hrun
  exact hrun

theorem train_go_step_ins (roundFn : ℕ → RoundResult) (rn rem : ℕ)
    (best : ℚ) (cnt : ℕ) (n : ℕ)
    (hr : roundFn rn = .insufficient_clients n) :
    train_go roundFn rn (rem + 1) best cnt
      = ((train_go roundFn (rn + 1) rem best cnt).1,
          (train_go roundFn (rn + 1) rem best cnt).2.1,
          (rn + 1, RoundResult.insufficient_clients n)
            :: (train_go roundFn (rn + 1) rem best cnt).2.2) := by
  simp [train_go, hr]

theorem train_go_step_improve (roundFn : ℕ → RoundResult) (rn rem : ℕ)
    (best : ℚ) (cnt : ℕ) (p : ℕ) (l a : ℚ) (evals : List EvalResult)
    (hr : roundFn rn = .completed p l a evals) (himp : a > best + 1/1000) :
    train_go roundFn rn (rem + 1) best cnt
      = ((train_go roundFn (rn + 1) rem a 0).1,
          (train_go roundFn (rn + 1) rem a 0).2.1,
          (rn + 1, RoundResult.completed p l a evals)
            :: (train_go roundFn (rn + 1) rem a 0).2.2) := by
  simp only [train_go, hr]
  rw [if_pos himp, if_neg (show ¬ (0 : ℕ) ≥ 3 by norm_num)]

theorem train_go_step_halt (roundFn : ℕ → RoundResult) (rn rem : ℕ)
    (best : ℚ) (cnt : ℕ) (p : ℕ) (l a : ℚ) (evals : List EvalResult)
    (hr : roundFn rn = .completed p l a evals) (himp : ¬ a > best + 1/1000)
    (hpat : cnt + 1 ≥ 3) :
    train_go roundFn rn (rem + 1) best cnt
      = (best, ((rn : ℕ) : ℤ) + 1,
          [(rn + 1, RoundResult.completed p l a evals)]) := by
  simp only [train_go, hr]
  rw [if_neg himp, if_pos hpat]

theorem train_go_step_noimprove (roundFn : ℕ → RoundResult) (rn rem : ℕ)
    (best : ℚ) (cnt : ℕ) (p : ℕ) (l a : ℚ) (evals : List EvalResult)
    (hr : roundFn rn = .completed p l a evals) (himp : ¬ a > best + 1/1000)
    (hpat : ¬ cnt + 1 ≥ 3) :
    train_go roundFn rn (rem + 1) best cnt
      = ((train_go roundFn (rn + 1) rem best (cnt + 1)).1,
          (train_go roundFn (rn + 1) rem best (cnt + 1)).2.1,
          (rn + 1, RoundResult.completed p l a evals)
            :: (train_go roundFn (rn + 1) rem best (cnt + 1)).2.2) := by
  simp only [train_go, hr]
  rw [if_neg himp, if_neg hpat]

theorem train_go_tracker (roundFn : ℕ → RoundResult) :
    ∀ (remaining round_num : ℕ) (best : ℚ) (cnt : ℕ), cnt < 3 →
      (train_go roundFn round_num remaining best cnt).1
          = (trackerRun (best, cnt) round_num
              ((List.range' round_num remaining).map roundFn)).1
        ∧ (train_go roundFn round_num remaining best cnt).2.1
          = (match (trackerRun (best, cnt) round_num
                ((List.range' round_num remaining).map roundFn)).2 with
              | some t => (t : ℤ)
              | none => -1) := by
  intro remaining
  induction remaining with
  | zero =>
    intro rn best cnt _
    exact ⟨rfl, rfl⟩
  | succ rem ih =>
    intro rn best cnt hcnt
    rw [List.range'_succ, List.map_cons]
    cases hr : roundFn rn with
    | insufficient_clients n =>
      have ihh := ih (rn + 1) best cnt hcnt
      have hc3 : ¬ cnt ≥ 3 := by omega
      have h1 : train_go roundFn rn (rem + 1) best cnt
          = ((train_go roundFn (rn + 1) rem best cnt).1,
              (train_go roundFn (rn + 1) rem best cnt).2.1,
              (rn + 1, roundFn rn)
                :: (train_go roundFn (rn + 1) rem best cnt).2.2) := by
        simp [train_go, hr]
      have h2 : trackerRun (best, cnt) rn
          (RoundResult.insufficient_clients n
            :: (List.range' (rn + 1) rem).map roundFn)
          = trackerRun (best, cnt) (rn + 1)
              ((List.range' (rn + 1) rem).map roundFn) := by
        simp [trackerRun, trackerStep, hc3]
      rw [h1, h2]
      exact ihh
    | completed p l a evals =>
      by_cases himp : a > best + 1/1000
      · have ihh := ih (rn + 1) a 0 (by norm_num)
        have hstep : trackerStep (best, cnt) (RoundResult.completed p l a evals)
            = (a, 0) := by
          simp only [trackerStep]
          rw [if_pos (show a > ((best, cnt) : ℚ × ℕ).1 + 1/1000 from himp)]
        have h1 : train_go roundFn rn (rem + 1) best cnt
            = ((train_go roundFn (rn + 1) rem a 0).1,
                (train_go roundFn (rn + 1) rem a 0).2.1,
                (rn + 1, RoundResult.completed p l a evals)
                  :: (train_go roundFn (rn + 1) rem a 0).2.2) := by
          simp only [train_go, hr]
          rw [if_pos himp, if_neg (show ¬ (0 : ℕ) ≥ 3 by norm_num)]
        have h2 : trackerRun (best, cnt) rn
            (RoundResult.completed p l a evals
              :: (List.range' (rn + 1) rem).map roundFn)
            = trackerRun (a, 0) (rn + 1)
                ((List.range' (rn + 1) rem).map roundFn) := by
          simp [trackerRun, hstep]
        rw [h1, h2]
        exact ihh
      · by_cases hpat : cnt + 1 ≥ 3
        · have hstep : trackerStep (best, cnt)
              (RoundResult.completed p l a evals) = (best, cnt + 1) := by
            simp only [trackerStep]
            rw [if_neg (show ¬ a > ((best, cnt) : ℚ × ℕ).1 + 1/1000 from himp)]
          have h1 : train_go roundFn rn (rem + 1) best cnt
              = (best, ((rn : ℤ) + 1),
                  [(rn + 1, RoundResult.completed p l a evals)]) := by
            simp only [train_go, hr]
            rw [if_neg himp, if_pos hpat]
          have h2 : trackerRun (best, cnt) rn
              (RoundResult.completed p l a evals
                :: (List.range' (rn + 1) rem).map roundFn)
              = (best, some (rn + 1)) := by
            simp [trackerRun, hstep, hpat]
          rw [h1, h2]
          refine ⟨rfl, ?_⟩
          show ((rn : ℤ) + 1) = ((rn + 1 : ℕ) : ℤ)
          push_cast
          ring
        · have ihh := ih (rn + 1) best (cnt + 1) (by omega)
          have hstep : trackerStep (best, cnt)
              (RoundResult.completed p l a evals) = (best, cnt + 1) := by
            simp only [trackerStep]
            rw [if_neg (show ¬ a > ((best, cnt) : ℚ × ℕ).1 + 1/1000 from himp)]
          have h1 : train_go roundFn rn (rem + 1) best cnt
              = ((train_go roundFn (rn + 1) rem best (cnt + 1)).1,
                  (train_go roundFn (rn + 1) rem best (cnt + 1)).2.1,
                  (rn + 1, RoundResult.completed p l a evals)
                    :: (train_go roundFn (rn + 1) rem best (cnt + 1)).2.2) := by
            simp only [train_go, hr]
            rw [if_neg himp, if_neg hpat]
          have h2 : trackerRun (best, cnt) rn
              (RoundResult.completed p l a evals
                :: (List.range' (rn + 1) rem).map roundFn)
              = trackerRun (best, cnt + 1) (rn + 1)
                  ((List.range' (rn + 1) rem).map roundFn) := by
            simp [trackerRun, hstep, hpat]
          rw [h1, h2]
          exact ihh

/-- Claim C5: `train` maintains `best_accuracy` (init 0) and
`no_improvement_count` (init 0) exactly per the spec's convergence rule —
improve-and-reset on a COMPLETED round whose accuracy beats the best by
more than 0.001, else increment; halt as soon as the counter reaches the
patience of 3; INSUFFICIENT_CLIENTS rounds consume budget but change
neither value — and on the scripted accuracy sequence
[0.5, 0.5005, 0.5007, 0.5006] training halts after the 4th round with
best accuracy 0.5. -/
theorem train_convergence_tracker :
    (∀ (roundFn : ℕ → RoundResult) (num_rounds : ℕ),
      (train roundFn num_rounds).final_accuracy
          = (trackerRun (0, 0) 0 ((List.range num_rounds).map roundFn)).1
        ∧ (train roundFn num_rounds).convergence_round
          = (match (trackerRun (0, 0) 0
                ((List.range num_rounds).map roundFn)).2 with
              | some t => (t : ℤ)
              | none => -1))
    ∧ ((train script4 10).convergence_round = 4
        ∧ (train script4 10).final_accuracy = 1/2
        ∧ (train script4 10).rounds.length = 4) := by
  constructor
  · intro roundFn num_rounds
    have h := train_go_tracker roundFn num_rounds 0 0 0 (by norm_num)
    rw [List.range_eq_range']
    exact h
  · have s4 : train_go script4 3 7 (1/2) 2
        = (1/2, ((3 : ℕ) : ℤ) + 1,
            [(4, RoundResult.completed 3 0 (2503/5000) [])]) :=
      train_go_step_halt script4 3 6 (1/2) 2 3 0 (2503/5000) [] rfl
        (by norm_num) (by norm_num)
    have s3 : train_go script4 2 8 (1/2) 1
        = ((train_go script4 3 7 (1/2) 2).1,
            (train_go script4 3 7 (1/2) 2).2.1,
            (3, RoundResult.completed 3 0 (5007/10000) [])
              :: (train_go script4 3 7 (1/2) 2).2.2) :=
      train_go_step_noimprove script4 2 7 (1/2) 1 3 0 (5007/10000) [] rfl
        (by norm_num) (by norm_num)
    have s2 : train_go script4 1 9 (1/2) 0
        = ((train_go script4 2 8 (1/2) 1).1,
            (train_go script4 2 8 (1/2) 1).2.1,
            (2, RoundResult.completed 3 0 (1001/2000) [])
              :: (train_go script4 2 8 (1/2) 1).2.2) :=
      train_go_step_noimprove script4 1 8 (1/2) 0 3 0 (1001/2000) [] rfl
        (by norm_num) (by norm_num)
    have s1 : train_go script4 0 10 0 0
        = ((train_go script4 1 9 (1/2) 0).1,
            (train_go script4 1 9 (1/2) 0).2.1,
            (1, RoundResult.completed 3 0 (1/2) [])
              :: (train_go script4 1 9 (1/2) 0).2.2) :=
      train_go_step_improve script4 0 9 0 0 3 0 (1/2) [] rfl (by norm_num)
    have e1 : train_go script4 0 10 0 0
        = (1/2, ((3 : ℕ) : ℤ) + 1,
            [(1, RoundResult.completed 3 0 (1/2) []),
              (2, RoundResult.completed 3 0 (1001/2000) []),
              (3, RoundResult.completed 3 0 (5007/10000) []),
              (4, RoundResult.completed 3 0 (2503/5000) [])]) := by
      rw [s1, s2, s3, s4]
    refine ⟨?_, ?_, ?_⟩
    · show (train_go script4 0 10 0 0).2.1 = 4
      rw [e1]
      norm_num
    · show (train_go script4 0 10 0 0).1 = 1/2
      rw [e1]
    · show (train_go script4 0 10 0 0).2.2.length = 4
      rw [e1]
      rfl

/-- Counterexample to claim C6: with COMPLETED accuracies [0.5, 0.5005]
(the second improves by less than the 0.001 threshold), train's reported
final_accuracy is 0.5, strictly below the maximum COMPLETED accuracy
0.5005 observed in the run. -/
theorem train_final_accuracy_not_max_cex :
    (train script2 2).final_accuracy = 1/2
    ∧ (2, RoundResult.completed 3 0 (1001/2000) []) ∈ (train script2 2).rounds
    ∧ (1/2 : ℚ) < 1001/2000 := by
  have s2 : train_go script2 1 1 (1/2) 0
      = ((train_go script2 2 0 (1/2) 1).1,
          (train_go script2 2 0 (1/2) 1).2.1,
          (2, RoundResult.completed 3 0 (1001/2000) [])
            :: (train_go script2 2 0 (1/2) 1).2.2) :=
    train_go_step_noimprove script2 1 0 (1/2) 0 3 0 (1001/2000) [] rfl
      (by norm_num) (by norm_num)
  have s1 : train_go script2 0 2 0 0
      = ((train_go script2 1 1 (1/2) 0).1,
          (train_go script2 1 1 (1/2) 0).2.1,
          (1, RoundResult.completed 3 0 (1/2) [])
            :: (train_go script2 1 1 (1/2) 0).2.2) :=
    train_go_step_improve script2 0 1 0 0 3 0 (1/2) [] rfl (by norm_num)
  have e1 : train_go script2 0 2 0 0
      = (1/2, -1,
          [(1, RoundResult.completed 3 0 (1/2) []),
            (2, RoundResult.completed 3 0 (1001/2000) [])]) := by
    rw [s1, s2]
    rfl
  refine ⟨?_, ?_, by norm_num⟩
  · show (train_go script2 0 2 0 0).1 = 1/2
    rw [e1]
  · show (2, RoundResult.completed 3 0 (1001/2000) [])
        ∈ (train_go script2 0 2 0 0).2.2
    rw [e1]
    simp

theorem train_go_best_bounds (roundFn : ℕ → RoundResult) :
    ∀ (remaining round_num : ℕ) (best : ℚ) (cnt : ℕ),
      best ≤ (train_go roundFn round_num remaining best cnt).1
      ∧ (∀ a ∈ completedAccuracies
            (train_go roundFn round_num remaining best cnt).2.2,
          a ≤ (train_go roundFn round_num remaining best cnt).1 + 1/1000)
      ∧ ((train_go roundFn round_num remaining best cnt).1 = best
          ∨ (train_go roundFn round_num remaining best cnt).1
              ∈ completedAccuracies
                  (train_go roundFn round_num remaining best cnt).2.2) := by
  intro remaining
  induction remaining with
  | zero =>
    intro rn best cnt
    refine ⟨le_refl _, ?_, Or.inl rfl⟩
    intro a ha
    simp [train_go, completedAccuracies] at ha
  | succ rem ih =>
    intro rn best cnt
    cases hr : roundFn rn with
    | insufficient_clients n =>
      obtain ⟨ih1, ih2, ih3⟩ := ih (rn + 1) best cnt
      have h1 : train_go roundFn rn (rem + 1) best cnt
          = ((train_go roundFn (rn + 1) rem best cnt).1,
              (train_go roundFn (rn + 1) rem best cnt).2.1,
              (rn + 1, RoundResult.insufficient_clients n)
                :: (train_go roundFn (rn + 1) rem best cnt).2.2) := by
        simp [train_go, hr]
      rw [h1]
      refine ⟨ih1, ?_, ?_⟩
      · intro a ha
        rw [show completedAccuracies
              ((rn + 1, RoundResult.insufficient_clients n)
                :: (train_go roundFn (rn + 1) rem best cnt).2.2)
            = completedAccuracies
                (train_go roundFn (rn + 1) rem best cnt).2.2 from rfl] at ha
        exact ih2 a ha
      · exact ih3
    | completed p l a evals =>
      by_cases himp : a > best + 1/1000
      · obtain ⟨ih1, ih2, ih3⟩ := ih (rn + 1) a 0
        have h1 : train_go roundFn rn (rem + 1) best cnt
            = ((train_go roundFn (rn + 1) rem a 0).1,
                (train_go roundFn (rn + 1) rem a 0).2.1,
                (rn + 1, RoundResult.completed p l a evals)
                  :: (train_go roundFn (rn + 1) rem a 0).2.2) := by
          simp only [train_go, hr]
          rw [if_pos himp, if_neg (show ¬ (0 : ℕ) ≥ 3 by norm_num)]
        rw [h1]
        have hba : best ≤ a := le_of_lt (by linarith)
        refine ⟨le_trans hba ih1, ?_, ?_⟩
        · intro x hx
          rw [show completedAccuracies
                ((rn + 1, RoundResult.completed p l a evals)
                  :: (train_go roundFn (rn + 1) rem a 0).2.2)
              = a :: completedAccuracies
                  (train_go roundFn (rn + 1) rem a 0).2.2 from rfl] at hx
          rcases List.mem_cons.mp hx with rfl | hx'
          · linarith [ih1]
          · exact ih2 x hx'
        · rcases ih3 with h | h
          · exact Or.inr (by
              rw [show completedAccuracies
                    ((rn + 1, RoundResult.completed p l a evals)
                      :: (train_go roundFn (rn + 1) rem a 0).2.2)
                  = a :: completedAccuracies
                      (train_go roundFn (rn + 1) rem a 0).2.2 from rfl]
              rw [h]
              exact List.mem_cons_self _ _)
          · exact Or.inr (by
              rw [show completedAccuracies
                    ((rn + 1, RoundResult.completed p l a evals)
                      :: (train_go roundFn (rn + 1) rem a 0).2.2)
                  = a :: completedAccuracies
                      (train_go roundFn (rn + 1) rem a 0).2.2 from rfl]
              exact List.mem_cons_of_mem _ h)
      · by_cases hpat : cnt + 1 ≥ 3
        · have h1 : train_go roundFn rn (rem + 1) best cnt
              = (best, ((rn : ℤ) + 1),
                  [(rn + 1, RoundResult.completed p l a evals)]) := by
            simp only [train_go, hr]
            rw [if_neg himp, if_pos hpat]
          rw [h1]
          refine ⟨le_refl _, ?_, Or.inl rfl⟩
          intro x hx
          rw [show completedAccuracies
                [(rn + 1, RoundResult.completed p l a evals)] = [a] from rfl]
              at hx
          rcases List.mem_singleton.mp hx with rfl
          linarith [not_lt.mp himp]
        · obtain ⟨ih1, ih2, ih3⟩ := ih (rn + 1) best (cnt + 1)
          have h1 : train_go roundFn rn (rem + 1) best cnt
              = ((train_go roundFn (rn + 1) rem best (cnt + 1)).1,
                  (train_go roundFn (rn + 1) rem best (cnt + 1)).2.1,
                  (rn + 1, RoundResult.completed p l a evals)
                    :: (train_go roundFn (rn + 1) rem best (cnt + 1)).2.2) := by
            simp only [train_go, hr]
            rw [if_neg himp, if_neg hpat]
          rw [h1]
          refine ⟨ih1, ?_, ?_⟩
          · intro x hx
            rw [show completedAccuracies
                  ((rn + 1, RoundResult.completed p l a evals)
                    :: (train_go roundFn (rn + 1) rem best (cnt + 1)).2.2)
                = a :: completedAccuracies
                    (train_go roundFn (rn + 1) rem best (cnt + 1)).2.2
                from rfl] at hx
            rcases List.mem_cons.mp hx with rfl | hx'
            · linarith [not_lt.mp himp, ih1]
            · exact ih2 x hx'
          · rcases ih3 with h | h
            · exact Or.inl h
            · exact Or.inr (by
                rw [show completedAccuracies
                      ((rn + 1, RoundResult.completed p l a evals)
                        :: (train_go roundFn (rn + 1) rem best (cnt + 1)).2.2)
                    = a :: completedAccuracies
                        (train_go roundFn (rn + 1) rem best (cnt + 1)).2.2
                    from rfl]
                exact List.mem_cons_of_mem _ h)

/-- Claim C6 (amended): the final_accuracy returned by `train` is the
tracker's best accuracy, not the maximum COMPLETED avg_accuracy: it is
either 0 or one of the run's COMPLETED accuracies, and it underestimates
every COMPLETED round's accuracy by at most the 0.001 convergence
threshold; equality with the maximum can fail when improvements are
smaller than the threshold. -/
theorem train_final_accuracy_near_max (roundFn : ℕ → RoundResult)
    (num_rounds : ℕ) :
    (∀ a ∈ completedAccuracies (train roundFn num_rounds).rounds,
        a ≤ (train roundFn num_rounds).final_accuracy + 1/1000)
    ∧ ((train roundFn num_rounds).final_accuracy = 0
        ∨ (train roundFn num_rounds).final_accuracy
            ∈ completedAccuracies (train roundFn num_rounds).rounds) := by
  obtain ⟨_, h2, h3⟩ := train_go_best_bounds roundFn num_rounds 0 0 0
  exact ⟨h2, h3⟩

theorem train_go_hist (roundFn : ℕ → RoundResult) :
    ∀ (remaining round_num : ℕ) (best : ℚ) (cnt : ℕ),
      ∃ k, k ≤ remaining ∧
        (train_go roundFn round_num remaining best cnt).2.2
          = (List.range' round_num k).map (fun j => (j + 1, roundFn j)) := by
  intro remaining
  induction remaining with
  | zero =>
    intro rn best cnt
    exact ⟨0, Nat.le_refl 0, rfl⟩
  | succ rem ih =>
    intro rn best cnt
    cases hr : roundFn rn with
    | insufficient_clients n =>
      obtain ⟨k, hk, hh⟩ := ih (rn + 1) best cnt
      refine ⟨k + 1, by omega, ?_⟩
      rw [train_go_step_ins roundFn rn rem best cnt n hr]
      show (rn + 1, RoundResult.insufficient_clients n)
          :: (train_go roundFn (rn + 1) rem best cnt).2.2 = _
      rw [hh, List.range'_succ, List.map_cons, hr]
    | completed p l a evals =>
      by_cases himp : a > best + 1/1000
      · obtain ⟨k, hk, hh⟩ := ih (rn + 1) a 0
        refine ⟨k + 1, by omega, ?_⟩
        rw [train_go_step_improve roundFn rn rem best cnt p l a evals hr himp]
        show (rn + 1, RoundResult.completed p l a evals)
            :: (train_go roundFn (rn + 1) rem a 0).2.2 = _
        rw [hh, List.range'_succ, List.map_cons, hr]
      · by_cases hpat : cnt + 1 ≥ 3
        · refine ⟨1, by omega, ?_⟩
          rw [train_go_step_halt roundFn rn rem best cnt p l a evals hr himp
            hpat]
          show [(rn + 1, RoundResult.completed p l a evals)] = _
          rw [List.range'_succ, List.map_cons, hr]
          rfl
        · obtain ⟨k, hk, hh⟩ := ih (rn + 1) best (cnt + 1)
          refine ⟨k + 1, by omega, ?_⟩
          rw [train_go_step_noimprove roundFn rn rem best cnt p l a evals hr
            himp hpat]
          show (rn + 1, RoundResult.completed p l a evals)
              :: (train_go roundFn (rn + 1) rem best (cnt + 1)).2.2 = _
          rw [hh, List.range'_succ, List.map_cons, hr]

/-- Counterexample to claim C7: a `federated_round` call that ends with
status INSUFFICIENT_CLIENTS appends nothing to the server's round-results
history (the early return skips the append), so not every call appends a
record. -/
theorem federated_round_insufficient_no_append_cex :
    federated_round [("b", [(1 : ℚ)])] [.completed 1 0 0 []]
        [⟨"c9", .error "x", .error "x"⟩] 2
      = .ok (.insufficient_clients 1, [("b", [1])],
          [.completed 1 0 0 []]) := rfl

/-- Claim C7 (amended): `federated_round` appends exactly one record to the
round-results history when the round completes, and none when it ends
INSUFFICIENT_CLIENTS; `train` nevertheless stores every attempted round's
result — insufficient ones included — in the returned history, one record
per attempted round, in order, never mutating or removing earlier
entries. -/
theorem round_history_records :
    (∀ (globalState : Params) (round_results : List RoundResult)
        (selected_clients : List FederatedClient) (min_clients : ℕ)
        (r : RoundResult) (g' : Params) (rr' : List RoundResult),
      federated_round globalState round_results selected_clients min_clients
          = .ok (r, g', rr') →
        ((∃ n, r = .insufficient_clients n) → rr' = round_results)
        ∧ ((∀ n, r ≠ .insufficient_clients n) → rr' = round_results ++ [r]))
    ∧ (∀ (roundFn : ℕ → RoundResult) (num_rounds : ℕ), ∃ k, k ≤ num_rounds ∧
        (train roundFn num_rounds).rounds
          = (List.range k).map (fun i => (i + 1, roundFn i))) := by
  constructor
  · intro globalState round_results selected_clients min_clients r g' rr' hok
    by_cases hlt : selected_clients.length < min_clients
    · simp only [federated_round, if_pos hlt, Except.ok.injEq,
        Prod.mk.injEq] at hok
      obtain ⟨hr, _, hrr⟩ := hok
      subst hr
      subst hrr
      constructor
      · intro _
        rfl
      · intro hne
        exact absurd rfl (hne selected_clients.length)
    · obtain ⟨hr, hrr, _⟩ :=
        federated_round_ge_case _ _ _ _ _ _ _ hlt hok
      constructor
      · intro hex
        obtain ⟨n, hn⟩ := hex
        rw [hr] at hn
        exact absurd hn (by simp)
      · intro _
        exact hrr
  · intro roundFn num_rounds
    obtain ⟨k, hk, hh⟩ := train_go_hist roundFn num_rounds 0 0 0
    refine ⟨k, hk, ?_⟩
    rw [List.range_eq_range']
    exact hh

/-- Witness for C7 (amended): applying the characterisation to a concrete
INSUFFICIENT_CLIENTS round shows the server history is returned
unchanged. -/
theorem round_history_records_witness :
    ∃ rr', federated_round [("b", [(1 : ℚ)])] [.completed 1 0 0 []]
        [⟨"c9", .error "x", .error "x"⟩] 2
        = .ok (.insufficient_clients 1, [("b", [1])], rr')
      ∧ rr' = [.completed 1 0 0 []] := by
  have hok : federated_round [("b", [(1 : ℚ)])] [.completed 1 0 0 []]
      [⟨"c9", .error "x", .error "x"⟩] 2
      = .ok (.insufficient_clients 1, [("b", [1])], [.completed 1 0 0 []]) :=
    rfl
  have h := (round_history_records.1 _ _ _ _ _ _ _ hok).1 ⟨1, rfl⟩
  exact ⟨_, hok, h⟩

/-- Claim C3: on a registered pool of size P ≥ 1 and a fraction in [0,1],
`select_clients` returns exactly `max 1 ⌊P * fraction⌋` clients, pairwise
distinct (without replacement), all members of the registered pool. -/
theorem select_clients_cardinality
    (clients shuffled : List FederatedClient) (fraction : ℚ)
    (hperm : shuffled.Perm clients) (hnd : clients.Nodup)
    (hP : 1 ≤ clients.length) (_h0 : 0 ≤ fraction) (h1 : fraction ≤ 1) :
    (select_clients clients fraction shuffled).length
        = max 1 (⌊(clients.length : ℚ) * fraction⌋.toNat)
    ∧ (select_clients clients fraction shuffled).Nodup
    ∧ ∀ c ∈ select_clients clients fraction shuffled, c ∈ clients := by
  have hlen : shuffled.length = clients.length := hperm.length_eq
  have hfloor : ⌊(clients.length : ℚ) * fraction⌋.toNat ≤ clients.length := by
    have h2 : (clients.length : ℚ) * fraction ≤ (clients.length : ℚ) := by
      calc (clients.length : ℚ) * fraction
          ≤ (clients.length : ℚ) * 1 :=
            mul_le_mul_of_nonneg_left h1 (by positivity)
        _ = (clients.length : ℚ) := mul_one _
    have h3 : ⌊(clients.length : ℚ) * fraction⌋ ≤ (clients.length : ℤ) := by
      calc ⌊(clients.length : ℚ) * fraction⌋
          ≤ ⌊(clients.length : ℚ)⌋ := Int.floor_le_floor h2
        _ = (clients.length : ℤ) := Int.floor_natCast _
    exact Int.toNat_le.mpr h3
  have hns : max 1 (⌊(clients.length : ℚ) * fraction⌋.toNat)
      ≤ shuffled.length := by
    rw [hlen]
    exact max_le hP hfloor
  refine ⟨?_, ?_, ?_⟩
  · simp only [select_clients]
    rw [List.length_take]
    exact Nat.min_eq_left hns
  · have hnds : shuffled.Nodup := (hperm.nodup_iff).mpr hnd
    exact List.Nodup.sublist (List.take_sublist _ _) hnds
  · intro c hc
    exact hperm.subset (List.take_subset _ _ hc)

/-- Witness for C3: pool of 3 distinct clients, fraction 1/2, identity
permutation: exactly max(1, ⌊3 * 0.5⌋) = 1 distinct registered client is
selected. -/
theorem select_clients_cardinality_witness :
    (select_clients demo3c (1/2) demo3c).length = 1
    ∧ (select_clients demo3c (1/2) demo3c).Nodup
    ∧ ∀ c ∈ select_clients demo3c (1/2) demo3c, c ∈ demo3c := by
  obtain ⟨hl, hnd2, hmem⟩ :=
    select_clients_cardinality demo3c demo3c (1/2) (List.Perm.refl _)
      (by decide) (by decide) (by norm_num) (by norm_num)
  refine ⟨?_, hnd2, hmem⟩
  rw [hl]
  have hf : ⌊(demo3c.length : ℚ) * (1/2)⌋ = (1 : ℤ) := by
    rw [show (demo3c.length : ℚ) * (1/2) = 3/2 by norm_num [demo3c]]
    rw [Int.floor_eq_iff]
    constructor
    · norm_num
    · norm_num
  rw [hf]
  rfl

theorem sumSq_nonneg (arr : List ℝ) : 0 ≤ sumSq arr := by
  apply List.sum_nonneg
  intro x hx
  rcases List.mem_map.mp hx with ⟨y, _, rfl⟩
  positivity

theorem total_norm_eq (delta : List (List ℝ)) :
    total_norm delta = Real.sqrt ((delta.map sumSq).sum) := by
  unfold total_norm
  congr 1
  refine congrArg List.sum ?_
  apply List.map_congr_left
  intro arr _
  unfold param_norm
  exact Real.sq_sqrt (sumSq_nonneg arr)

theorem sumSq_scale (c : ℝ) (arr : List ℝ) :
    sumSq (arr.map (fun x => c * x)) = c ^ 2 * sumSq arr := by
  induction arr with
  | nil => simp [sumSq]
  | cons x xs ih =>
    simp only [sumSq, List.map_cons, List.sum_cons] at ih ⊢
    rw [ih]
    ring

theorem flatSumSq_scale (c : ℝ) (delta : List (List ℝ)) :
    ((delta.map (fun arr => arr.map (fun x => c * x))).map sumSq).sum
      = c ^ 2 * ((delta.map sumSq).sum) := by
  induction delta with
  | nil => simp
  | cons arr rest ih =>
    simp only [List.map_cons, List.sum_cons]
    rw [sumSq_scale, ih]
    ring

/-- Claim C4: for every delta with nonzero total norm and every positive
`max_grad_norm`, after the clipping step of `add_noise_to_gradients` the
Euclidean norm of the (pre-noise) flattened delta is at most
`max_grad_norm` — in exact real arithmetic the bound holds outright, so a
fortiori within numerical tolerance. -/
theorem clip_gradients_norm_le (delta : List (List ℝ)) (max_grad_norm : ℝ)
    (hnz : total_norm delta ≠ 0) (hpos : 0 < max_grad_norm) :
    total_norm (clip_gradients max_grad_norm delta) ≤ max_grad_norm := by
  have ht0 : 0 ≤ total_norm delta := by
    rw [total_norm_eq]
    exact Real.sqrt_nonneg _
  have htpos : 0 < total_norm delta := lt_of_le_of_ne ht0 (Ne.symm hnz)
  have hden : 0 < total_norm delta + 1 / 1000000 := by linarith
  set c := max_grad_norm / (total_norm delta + 1 / 1000000) with hc
  by_cases hclip : c < 1
  · have hcpos : 0 < c := div_pos hpos hden
    have h1 : clip_gradients max_grad_norm delta
        = delta.map (fun arr => arr.map (fun x => c * x)) := by
      simp only [clip_gradients]
      rw [← hc, if_pos hclip]
    rw [h1, total_norm_eq, flatSumSq_scale,
      Real.sqrt_mul (sq_nonneg c), Real.sqrt_sq hcpos.le, ← total_norm_eq,
      hc, div_mul_eq_mul_div, div_le_iff₀ hden]
    exact mul_le_mul_of_nonneg_left (by linarith) hpos.le
  · have h1 : clip_gradients max_grad_norm delta = delta := by
      simp only [clip_gradients]
      rw [← hc, if_neg hclip]
    rw [h1]
    have h2 : total_norm delta + 1 / 1000000 ≤ max_grad_norm := by
      have hone := not_lt.mp hclip
      rw [hc] at hone
      exact (one_le_div hden).mp hone
    linarith

/-- Witness for C4: the delta `[[3, 4]]` has total norm 5; with
`max_grad_norm = 1` its nonzero norm and the positivity hypothesis hold,
and the clipped delta's norm is at most 1. -/
theorem clip_gradients_norm_le_witness :
    total_norm [[(3 : ℝ), 4]] ≠ 0 ∧ (0 : ℝ) < 1
    ∧ total_norm (clip_gradients 1 [[(3 : ℝ), 4]]) ≤ 1 := by
  have h5 : total_norm [[(3 : ℝ), 4]] = 5 := by
    rw [total_norm_eq]
    rw [show (([[(3 : ℝ), 4]].map sumSq)).sum = 25 by norm_num [sumSq]]
    rw [show (25 : ℝ) = 5 ^ 2 by norm_num]
    exact Real.sqrt_sq (by norm_num)
  have hnz : total_norm [[(3 : ℝ), 4]] ≠ 0 := by
    rw [h5]
    norm_num
  exact ⟨hnz, by norm_num, clip_gradients_norm_le _ _ hnz (by norm_num)⟩
